import Mathlib

/-!
Verification development for package darfree.

Shallow embedding of `free_darwin_amd64.go` (package `darfree`).

* `uintptr` / `uint64` values are natural numbers below `2 ^ 64`; arithmetic that
  can overflow is reduced modulo `2 ^ 64` explicitly.
* `int32` values (`flags`, `prot`) are integers.
* A byte slice is a `List Nat` whose entries are below `256`.
* The assembly stubs `rawMadvise` / `rawMprotect` (declared in the Go file, defined in
  `free_darwin_amd64.s`) are parameters of `runtimeMadviseCallback`.
-/

namespace Darfree

/-! ## Constants of package `syscall` on darwin/amd64 -/

/-- Value of `syscall.MADV_FREE` on darwin. -/
def MADV_FREE : Int := 5

/-- Value of `syscall.PROT_NONE`. -/
def PROT_NONE : Int := 0

/-- Value of `syscall.PROT_READ`. -/
def PROT_READ : Int := 1

/-- Value of `syscall.PROT_WRITE`. -/
def PROT_WRITE : Int := 2

/-- Value of `syscall.PROT_EXEC`. -/
def PROT_EXEC : Int := 4

/-- Bitwise or of two non-negative `int32` flag words (`a | b` in Go). -/
def bor (a b : Int) : Int := ((a.toNat ||| b.toNat : Nat) : Int)

/-- Number of values of a `uintptr` / `uint64`. -/
def W64 : Nat := 2 ^ 64

/-! ## The intercept routine -/

/-- Embedding of `runtimeMadviseCallback`: the two assembly stubs are passed as state
transformers, so the same body can be run on a call trace or on a protection map. -/
def runtimeMadviseCallback {σ : Type} (rawMadvise : Nat → Nat → Int → σ → σ)
    (rawMprotect : Nat → Nat → Int → σ → σ) (addr n : Nat) (flags : Int) (s : σ) : σ :=
  let s1 := rawMadvise addr n flags s
  if flags = MADV_FREE then
    let s2 := rawMprotect addr n PROT_NONE s1
    rawMprotect addr n (bor PROT_READ PROT_WRITE) s2
  else
    s1

/-- One call to an assembly stub, as recorded in a trace. -/
inductive StubCall where
  | madvise (addr n : Nat) (flags : Int)
  | mprotect (addr n : Nat) (prot : Int)
  deriving DecidableEq

/-- Trace interpretation of `rawMadvise`: the call is appended to the trace. -/
def traceMadvise (addr n : Nat) (flags : Int) (t : List StubCall) : List StubCall :=
  t ++ [StubCall.madvise addr n flags]

/-- Trace interpretation of `rawMprotect`: the call is appended to the trace. -/
def traceMprotect (addr n : Nat) (prot : Int) (t : List StubCall) : List StubCall :=
  t ++ [StubCall.mprotect addr n prot]

/-- The calls issued by one run of `runtimeMadviseCallback`, oldest first. -/
def callbackTrace (addr n : Nat) (flags : Int) : List StubCall :=
  runtimeMadviseCallback traceMadvise traceMprotect addr n flags []

/-- The `rawMprotect` calls of a trace, as `(addr, n, prot)` triples. -/
def mprotectCalls : List StubCall → List (Nat × Nat × Int)
  | [] => []
  | StubCall.mprotect a n p :: t => (a, n, p) :: mprotectCalls t
  | StubCall.madvise _ _ _ :: t => mprotectCalls t

/-- The `rawMadvise` calls of a trace, as `(addr, n, flags)` triples. -/
def madviseCalls : List StubCall → List (Nat × Nat × Int)
  | [] => []
  | StubCall.madvise a n f :: t => (a, n, f) :: madviseCalls t
  | StubCall.mprotect _ _ _ :: t => madviseCalls t

/-! ## The machine-code generator -/

/-- Go's `binary.LittleEndian.PutUint64` on a fresh 8-byte slice: byte `i` is
`byte(v >> (8*i))`. -/
def putUint64 (v : Nat) : List Nat :=
  [v % 256, (v >>> 8) % 256, (v >>> 16) % 256, (v >>> 24) % 256,
   (v >>> 32) % 256, (v >>> 40) % 256, (v >>> 48) % 256, (v >>> 56) % 256]

/-- Go slice expression `xs[lo:hi]`. -/
def slice (xs : List Nat) (lo hi : Nat) : List Nat := (xs.take hi).drop lo

/-- Embedding of `ccJmp`. -/
def ccJmp (target : Nat) : List Nat :=
  let addr := putUint64 (target % W64)
  let asm : List Nat := [0x6A, 0x00]
  let asm := asm ++ [0xC7, 0x04, 0x24]
  let asm := asm ++ slice addr 0 4
  let asm := asm ++ [0xC7, 0x44, 0x24, 0x04]
  let asm := asm ++ slice addr 4 8
  let asm := asm ++ [0xC3]
  asm

/-- Little-endian value of a byte list. -/
def leValue : List Nat → Nat
  | [] => 0
  | b :: bs => b + 256 * leValue bs

/-! ## Page arithmetic -/

/-- Embedding of `pageOf`; `S` is the result of `syscall.Getpagesize()`.
`uintptr(S) - 1` and `^x` are computed in 64-bit unsigned arithmetic. -/
def pageOf (S p : Nat) : Nat :=
  p &&& ((W64 - 1) ^^^ ((S % W64 + W64 - 1) % W64))

/-! ## The patch installer

Memory carries a protection word per address. The stores of `init` go through it: a store to
an address whose protection lacks `PROT_WRITE` faults and ends the process. -/

/-- An action of `init` that took place, in program order: a protection change requested
from the kernel, or a byte stored. -/
inductive InitEvent where
  | mprotect (addr len : Nat) (prot : Int)
  | store (addr byte : Nat)
  deriving DecidableEq

/-- The way `init` ended fatally: one of its two `panic` calls, or a fault on the store to
`addr`. -/
inductive InitPanic where
  | unresolved
  | mprotectFailed (errno : Nat)
  | fault (addr : Nat)
  deriving DecidableEq

/-- Process memory (one byte and one protection word per address) together with the actions
performed so far. -/
structure InitState where
  mem : Nat → Nat
  prot : Nat → Int
  trace : List InitEvent

/-- Outcome of `init`: whether it ended fatally, and the memory, protection and actions at
that point. -/
structure InitResult where
  panic : Option InitPanic
  mem : Nat → Nat
  prot : Nat → Int
  trace : List InitEvent

/-- Whether a protection word allows stores (`PROT_WRITE` is set). -/
def canWrite (pr : Int) : Bool := (pr.toNat &&& PROT_WRITE.toNat) != 0

/-- Embedding of `mprotect`: `sys a1 a2 a3` is the errno returned by
`syscall.Syscall(syscall.SYS_MPROTECT, a1, a2, a3)`. The first component is the error
returned, if any. The second is the protection of memory after the call: a call that
succeeds has given `[addr, addr + len)` the protection `prot`, a call that fails has
changed nothing. -/
def mprotect (sys : Nat → Nat → Nat → Nat) (addr len : Nat) (prot : Int) (pm : Nat → Int) :
    Option Nat × (Nat → Int) :=
  let errno := sys addr len (prot % (W64 : Int)).toNat
  if errno ≠ 0 then (some errno, pm)
  else (none, fun a => if addr ≤ a ∧ a < addr + len then prot else pm a)

/-- The statement `*(*byte)(unsafe.Pointer(addr)) = b`; `none` when the store faults. -/
def storeByte (s : InitState) (addr b : Nat) : Option InitState :=
  if canWrite (s.prot addr) = true then
    some { mem := fun a => if a = addr then b else s.mem a,
           prot := s.prot,
           trace := s.trace ++ [InitEvent.store addr b] }
  else none

/-- The loop `for i, b := range jmp { *(*byte)(madvisePtr + uintptr(i)) = b }`, entered
at index `i` with the remaining bytes. The result is the state reached and, when a store
faulted, the address of that store. -/
def copyLoop (madvisePtr : Nat) : List Nat → Nat → InitState → InitState × Option Nat
  | [], _, s => (s, none)
  | b :: bs, i, s =>
    match storeByte s ((madvisePtr + i % W64) % W64) b with
    | none => (s, some ((madvisePtr + i % W64) % W64))
    | some s1 => copyLoop madvisePtr bs (i + 1) s1

/-- Embedding of `init`. The environment is explicit: `madviseAddress` and
`callbackAddress` are the results of the two assembly stubs, `funcForPC p` tells whether
`runtime.FuncForPC(p)` is non-nil, `pagesize` is `syscall.Getpagesize()`, `sys` is the
mprotect system call, `mem` the memory of the process and `prot` its protection. -/
def init (madviseAddress callbackAddress : Nat) (funcForPC : Nat → Bool) (pagesize : Nat)
    (sys : Nat → Nat → Nat → Nat) (mem : Nat → Nat) (prot : Nat → Int) : InitResult :=
  let madvisePtr := madviseAddress
  if funcForPC madvisePtr = false then
    { panic := some InitPanic.unresolved, mem := mem, prot := prot, trace := [] }
  else
    let jmp := ccJmp callbackAddress
    let prot1 := bor (bor PROT_READ PROT_WRITE) PROT_EXEC
    let r1 := mprotect sys (pageOf pagesize madvisePtr) (pagesize % W64) prot1 prot
    let s1 : InitState :=
      { mem := mem, prot := r1.2,
        trace := [InitEvent.mprotect (pageOf pagesize madvisePtr) (pagesize % W64) prot1] }
    match r1.1 with
    | some errno =>
      { panic := some (InitPanic.mprotectFailed errno), mem := s1.mem, prot := s1.prot,
        trace := s1.trace }
    | none =>
      match copyLoop madvisePtr jmp 0 s1 with
      | (s2, some a) =>
        { panic := some (InitPanic.fault a), mem := s2.mem, prot := s2.prot, trace := s2.trace }
      | (s2, none) =>
        let prot2 := bor PROT_READ PROT_EXEC
        let r2 := mprotect sys (pageOf pagesize madvisePtr) (pagesize % W64) prot2 s2.prot
        let trace3 :=
          s2.trace ++ [InitEvent.mprotect (pageOf pagesize madvisePtr) (pagesize % W64) prot2]
        match r2.1 with
        | some errno =>
          { panic := some (InitPanic.mprotectFailed errno), mem := s2.mem, prot := r2.2,
            trace := trace3 }
        | none => { panic := none, mem := s2.mem, prot := r2.2, trace := trace3 }

/-- The addresses stored to, in program order. -/
def storeAddrs : List InitEvent → List Nat
  | [] => []
  | InitEvent.store a _ :: t => a :: storeAddrs t
  | InitEvent.mprotect _ _ _ :: t => storeAddrs t

/-- The protection changes requested, in program order. -/
def protChanges : List InitEvent → List (Nat × Nat × Int)
  | [] => []
  | InitEvent.mprotect a l p :: t => (a, l, p) :: protChanges t
  | InitEvent.store _ _ :: t => protChanges t

/-- Memory after storing `bs` at `madvisePtr + i, madvisePtr + i + 1, ...` when every store
succeeds. -/
def storeAll (madvisePtr : Nat) : List Nat → Nat → (Nat → Nat) → Nat → Nat
  | [], _, m => m
  | b :: bs, i, m =>
    storeAll madvisePtr bs (i + 1) (fun a => if a = (madvisePtr + i % W64) % W64 then b else m a)

/-! ## Execution of the redirection sequence

The instructions named in the docstring of `ccJmp` (`PUSH imm8`, `MOV DWORD PTR
[RSP+disp], imm32`, `RET`), with their x86-64 encodings and effects. -/

/-- Registers and memory of the processor. `regs` holds every register other than the
instruction pointer and the stack pointer (general-purpose registers and flags). -/
structure Cpu where
  rip : Nat
  rsp : Nat
  regs : Nat → Nat
  mem : Nat → Nat

/-- The three instruction forms of the redirection sequence. -/
inductive Instr where
  | pushImm8 (imm : Nat)
  | movDwordRsp (disp : Nat) (imm : List Nat)
  | ret
  deriving DecidableEq

/-- Decoder for the encodings `6A ib`, `C7 04 24 id`, `C7 44 24 ib id` and `C3`. -/
def decode : List Nat → Option (List Instr)
  | [] => some []
  | op :: rest =>
    if op = 0x6A then
      match rest with
      | ib :: rest1 => (decode rest1).map (fun is => Instr.pushImm8 ib :: is)
      | _ => none
    else if op = 0xC3 then
      (decode rest).map (fun is => Instr.ret :: is)
    else if op = 0xC7 then
      match rest with
      | modrm :: sib :: rest1 =>
        if modrm = 0x04 ∧ sib = 0x24 then
          match rest1 with
          | i0 :: i1 :: i2 :: i3 :: rest2 =>
            (decode rest2).map (fun is => Instr.movDwordRsp 0 [i0, i1, i2, i3] :: is)
          | _ => none
        else if modrm = 0x44 ∧ sib = 0x24 then
          match rest1 with
          | d :: i0 :: i1 :: i2 :: i3 :: rest2 =>
            (decode rest2).map (fun is => Instr.movDwordRsp d [i0, i1, i2, i3] :: is)
          | _ => none
        else none
      | _ => none
    else none

/-- Sign extension of an 8-bit immediate or displacement to 64 bits. -/
def signExt8 (b : Nat) : Nat := if b < 128 then b else b + (W64 - 256)

/-- Store `bytes` at consecutive addresses starting at `addr` (64-bit address arithmetic). -/
def writeBytes (mem : Nat → Nat) (addr : Nat) : List Nat → Nat → Nat
  | [] => mem
  | b :: bs => writeBytes (fun a => if a = addr % W64 then b else mem a) (addr + 1) bs

/-- Load `n` bytes from consecutive addresses starting at `addr`. -/
def readBytes (mem : Nat → Nat) (addr : Nat) : Nat → List Nat
  | 0 => []
  | n + 1 => mem (addr % W64) :: readBytes mem (addr + 1) n

/-- Effect of one instruction. `PUSH` decrements `RSP` by 8 and stores the sign-extended
immediate, `MOV` stores four bytes at `RSP + disp`, `RET` loads the 8-byte return address
into `RIP` and increments `RSP` by 8. -/
def execInstr (c : Cpu) : Instr → Cpu
  | Instr.pushImm8 ib =>
    let sp := (c.rsp + W64 - 8) % W64
    { c with rsp := sp, mem := writeBytes c.mem sp (putUint64 (signExt8 ib)) }
  | Instr.movDwordRsp d imm =>
    { c with mem := writeBytes c.mem ((c.rsp + signExt8 d) % W64) imm }
  | Instr.ret =>
    { c with rip := leValue (readBytes c.mem c.rsp 8), rsp := (c.rsp + 8) % W64 }

/-- Execute instructions in sequence; execution of the sequence ends with the first `RET`,
which transfers control elsewhere. -/
def execSeq (c : Cpu) : List Instr → Cpu
  | [] => c
  | i :: is => if i = Instr.ret then execInstr c i else execSeq (execInstr c i) is

/-- Run a byte sequence as code, from its first byte until control leaves it; `none` when
the bytes are not a sequence of the three instruction forms. -/
def runCode (code : List Nat) (c : Cpu) : Option Cpu :=
  (decode code).map (fun is => execSeq c is)

/-! ## Page protection -/

/-- Modelled from the spec: the effect of the assembly stub `rawMprotect` (defined in
`free_darwin_amd64.s`) on the protection of memory. The spec glossary calls it "a system
call that sets read/write/execute permissions on a memory range": every address of
`[addr, addr + n)` gets protection `prot`. -/
def protMprotect (addr n : Nat) (prot : Int) (pm : Nat → Int) : Nat → Int :=
  fun a => if addr ≤ a ∧ a < addr + n then prot else pm a

/-- Modelled from the spec: the effect of the assembly stub `rawMadvise` (defined in
`free_darwin_amd64.s`) on the protection of memory. It "advises the OS it may reclaim a
memory range" and changes no protection. -/
def protMadvise (_addr _n : Nat) (_flags : Int) (pm : Nat → Int) : Nat → Int := pm

/-! ## Theorems -/

theorem W64_eq : W64 = 18446744073709551616 := by decide

theorem pageOf_eq_mul_div (k p : Nat) (hp : p < W64) :
    pageOf (2 ^ k) p = 2 ^ k * (p / 2 ^ k) := by
  have hp64 : p < 2 ^ 64 := hp
  unfold pageOf
  rcases Nat.lt_or_ge k 64 with hk | hk
  · have hlt : 2 ^ k < W64 := Nat.pow_lt_pow_right (by norm_num) hk
    have hpos : 0 < 2 ^ k := Nat.two_pow_pos k
    have h1 : (2 ^ k % W64 + W64 - 1) % W64 = 2 ^ k - 1 := by
      rw [Nat.mod_eq_of_lt hlt]
      have : 2 ^ k + W64 - 1 = (2 ^ k - 1) + W64 := by omega
      rw [this, Nat.add_mod_right, Nat.mod_eq_of_lt (by omega)]
    rw [h1]
    apply Nat.eq_of_testBit_eq
    intro i
    have hW : W64 - 1 = 2 ^ 64 - 1 := rfl
    rw [hW, Nat.testBit_and, Nat.testBit_xor, Nat.testBit_two_pow_sub_one,
      Nat.testBit_two_pow_sub_one, Nat.testBit_mul_pow_two, ← Nat.shiftRight_eq_div_pow,
      Nat.testBit_shiftRight]
    rcases Nat.lt_or_ge i k with hik | hik
    · have : ¬ k ≤ i := by omega
      have h64 : i < 64 := by omega
      simp [hik, this, h64]
    · rcases Nat.lt_or_ge i 64 with hi | hi
      · have : ¬ i < k := by omega
        simp [hik, this, hi, Nat.add_sub_cancel' hik]
      · have hpi : p.testBit i = false :=
          Nat.testBit_lt_two_pow (lt_of_lt_of_le hp64 (Nat.pow_le_pow_right (by norm_num) hi))
        have : ¬ i < k := by omega
        have h64 : ¬ i < 64 := by omega
        simp [hpi, this, h64, hik, Nat.add_sub_cancel' hik]
  · have hdvd : W64 ∣ 2 ^ k := Nat.pow_dvd_pow 2 hk
    have h0 : 2 ^ k % W64 = 0 := Nat.mod_eq_zero_of_dvd hdvd
    have hle : W64 ≤ 2 ^ k := Nat.le_of_dvd (Nat.two_pow_pos k) hdvd
    rw [h0]
    have h1 : (0 + W64 - 1) % W64 = W64 - 1 := by decide
    rw [h1, Nat.xor_self, Nat.and_zero, Nat.div_eq_of_lt (by omega), Nat.mul_zero]

/-! ## The intercept routine: call traces -/

/-- C1: the `rawMprotect` calls issued by `runtimeMadviseCallback addr n flags` are exactly
`(addr, n, PROT_NONE)` followed by `(addr, n, PROT_READ|PROT_WRITE)` when `flags` is
`MADV_FREE`, and there are none for any other value of `flags`. -/
theorem callback_mprotect_calls (addr n : Nat) (flags : Int) :
    (flags = MADV_FREE →
      mprotectCalls (callbackTrace addr n flags)
        = [(addr, n, PROT_NONE), (addr, n, bor PROT_READ PROT_WRITE)]) ∧
    (flags ≠ MADV_FREE → mprotectCalls (callbackTrace addr n flags) = []) := by
  constructor
  · intro h
    simp [callbackTrace, runtimeMadviseCallback, traceMadvise, traceMprotect, h, mprotectCalls]
  · intro h
    simp [callbackTrace, runtimeMadviseCallback, traceMadvise, h, mprotectCalls]

/-- Witness for C1 at `addr = 4096`, `n = 8192`, in lazy mode and in mode `1`. -/
theorem callback_mprotect_calls_witness :
    mprotectCalls (callbackTrace 4096 8192 5) = [(4096, 8192, 0), (4096, 8192, 3)] ∧
    mprotectCalls (callbackTrace 4096 8192 1) = [] :=
  ⟨(callback_mprotect_calls 4096 8192 5).1 (by decide),
   (callback_mprotect_calls 4096 8192 1).2 (by decide)⟩

/-- C2: `runtimeMadviseCallback addr n flags`, in every mode, calls `rawMadvise` exactly once,
with the arguments `(addr, n, flags)` it received, and that call is the first of the trace:
the trace is that call followed by calls none of which is a `rawMadvise`. -/
theorem callback_madvise_once_first (addr n : Nat) (flags : Int) :
    madviseCalls (callbackTrace addr n flags) = [(addr, n, flags)] ∧
    (callbackTrace addr n flags).head? = some (StubCall.madvise addr n flags) ∧
    ∃ rest, callbackTrace addr n flags = StubCall.madvise addr n flags :: rest ∧
      madviseCalls rest = [] := by
  by_cases h : flags = MADV_FREE
  · simp [callbackTrace, runtimeMadviseCallback, traceMadvise, traceMprotect, h, madviseCalls]
  · simp [callbackTrace, runtimeMadviseCallback, traceMadvise, h, madviseCalls]

/-! ## The machine-code generator -/

theorem ccJmp_eq (t : Nat) (ht : t < W64) :
    ccJmp t =
      [0x6A, 0x00, 0xC7, 0x04, 0x24,
       t % 256, t / 256 ^ 1 % 256, t / 256 ^ 2 % 256, t / 256 ^ 3 % 256,
       0xC7, 0x44, 0x24, 0x04,
       t / 256 ^ 4 % 256, t / 256 ^ 5 % 256, t / 256 ^ 6 % 256, t / 256 ^ 7 % 256,
       0xC3] := by
  simp [ccJmp, putUint64, slice, Nat.mod_eq_of_lt ht, Nat.shiftRight_eq_div_pow]

theorem leValue_bytes (t : Nat) (ht : t < W64) :
    leValue [t % 256, t / 256 ^ 1 % 256, t / 256 ^ 2 % 256, t / 256 ^ 3 % 256,
       t / 256 ^ 4 % 256, t / 256 ^ 5 % 256, t / 256 ^ 6 % 256, t / 256 ^ 7 % 256] = t := by
  rw [W64_eq] at ht
  simp only [leValue]
  norm_num
  omega

/-- C3: for every 64-bit address `t`, `ccJmp t` is the 18-byte sequence
`6A 00, C7 04 24, b0 b1 b2 b3, C7 44 24 04, b4 b5 b6 b7, C3`, where `b0 .. b7` are the
little-endian bytes of `t` (`b i = t / 256 ^ i % 256`, and they add up to `t`); its length is
18, hence at most 18; and for `t = 0x4242424241414141` it is the listing of the docstring. -/
theorem ccJmp_bytes (t : Nat) (ht : t < W64) :
    ccJmp t =
      [0x6A, 0x00, 0xC7, 0x04, 0x24,
       t % 256, t / 256 ^ 1 % 256, t / 256 ^ 2 % 256, t / 256 ^ 3 % 256,
       0xC7, 0x44, 0x24, 0x04,
       t / 256 ^ 4 % 256, t / 256 ^ 5 % 256, t / 256 ^ 6 % 256, t / 256 ^ 7 % 256,
       0xC3] ∧
    leValue [t % 256, t / 256 ^ 1 % 256, t / 256 ^ 2 % 256, t / 256 ^ 3 % 256,
       t / 256 ^ 4 % 256, t / 256 ^ 5 % 256, t / 256 ^ 6 % 256, t / 256 ^ 7 % 256] = t ∧
    (ccJmp t).length = 18 ∧ (ccJmp t).length ≤ 18 ∧
    ccJmp 0x4242424241414141 =
      [0x6a, 0x00, 0xc7, 0x04, 0x24, 0x41, 0x41, 0x41, 0x41,
       0xc7, 0x44, 0x24, 0x04, 0x42, 0x42, 0x42, 0x42, 0xc3] := by
  refine ⟨ccJmp_eq t ht, leValue_bytes t ht, ?_, ?_, by decide⟩
  · rw [ccJmp_eq t ht]; rfl
  · rw [ccJmp_eq t ht]; exact Nat.le_refl _

/-- Witness for C3 at the address `0x0102030405060708`. -/
theorem ccJmp_bytes_witness :
    ccJmp 0x0102030405060708 =
      [0x6A, 0x00, 0xC7, 0x04, 0x24, 0x08, 0x07, 0x06, 0x05,
       0xC7, 0x44, 0x24, 0x04, 0x04, 0x03, 0x02, 0x01, 0xC3] ∧
    (ccJmp 0x0102030405060708).length = 18 := by
  have h := ccJmp_bytes 0x0102030405060708 (by decide)
  exact ⟨by decide, h.2.2.1⟩

/-! ## Page arithmetic -/

/-- C9: for every 64-bit address `p` and every page size `S = 2 ^ k`, `pageOf` yields the
page-aligned base of the page containing `p`: it is a multiple of `S`, it satisfies
`pageOf p ≤ p < pageOf p + S`, it equals `p - p % S`, and `pageOf` is idempotent. -/
theorem pageOf_page_base (k p : Nat) (hp : p < W64) :
    2 ^ k ∣ pageOf (2 ^ k) p ∧
    pageOf (2 ^ k) p ≤ p ∧
    p < pageOf (2 ^ k) p + 2 ^ k ∧
    pageOf (2 ^ k) p = p - p % 2 ^ k ∧
    pageOf (2 ^ k) (pageOf (2 ^ k) p) = pageOf (2 ^ k) p := by
  have hS : 0 < 2 ^ k := Nat.two_pow_pos k
  have h := pageOf_eq_mul_div k p hp
  have hdm := Nat.div_add_mod p (2 ^ k)
  have hmod := Nat.mod_lt p hS
  have hle : pageOf (2 ^ k) p ≤ p := by rw [h]; omega
  refine ⟨?_, hle, ?_, ?_, ?_⟩
  · rw [h]; exact Nat.dvd_mul_right _ _
  · rw [h]; omega
  · rw [h]; omega
  · rw [pageOf_eq_mul_div k _ (lt_of_le_of_lt hle hp), h, Nat.mul_div_cancel_left _ hS]

/-- Witness for C9 at `p = 0x1000FF5` with 4096-byte pages. -/
theorem pageOf_page_base_witness :
    pageOf (2 ^ 12) 0x1000FF5 ≤ 0x1000FF5 ∧ pageOf (2 ^ 12) 0x1000FF5 = 0x1000FF5 - 0x1000FF5 % 2 ^ 12 :=
  ⟨(pageOf_page_base 12 0x1000FF5 (by decide)).2.1, (pageOf_page_base 12 0x1000FF5 (by decide)).2.2.2.1⟩

/-! ## The copy loop -/

theorem storeAll_frame (p : Nat) (bs : List Nat) (i : Nat) (m : Nat → Nat) (a : Nat)
    (h : ∀ j, j < bs.length → a ≠ (p + (i + j) % W64) % W64) :
    storeAll p bs i m a = m a := by
  induction bs generalizing i m with
  | nil => simp [storeAll]
  | cons b bs ih =>
    simp only [storeAll]
    rw [ih]
    · have h0 := h 0 (by simp)
      simp only [Nat.add_zero] at h0
      simp only [if_neg h0]
    · intro j hj
      have := h (j + 1) (by simp [hj])
      simpa [Nat.add_assoc, Nat.add_comm 1 j] using this

theorem storeAll_hit (p : Nat) (bs : List Nat) (i : Nat) (m : Nat → Nat)
    (hlen : i + bs.length ≤ W64) (j : Nat) (hj : j < bs.length) :
    storeAll p bs i m ((p + (i + j) % W64) % W64) = bs.getD j 0 := by
  induction bs generalizing i m j with
  | nil => simp at hj
  | cons b bs ih =>
    simp only [List.length_cons] at hlen hj
    simp only [storeAll]
    cases j with
    | zero =>
      rw [storeAll_frame]
      · simp
      · intro j hj2
        rw [W64_eq] at hlen ⊢
        omega
    | succ j =>
      have := ih (i + 1) (fun a => if a = (p + i % W64) % W64 then b else m a) (by omega) j
        (by omega)
      simpa [Nat.add_assoc, Nat.add_comm 1 j] using this

theorem storeAll_idem (p : Nat) (bs : List Nat) (m : Nat → Nat) (hlen : 0 + bs.length ≤ W64) :
    storeAll p bs 0 (storeAll p bs 0 m) = storeAll p bs 0 m := by
  funext a
  by_cases h : ∃ j, j < bs.length ∧ a = (p + (0 + j) % W64) % W64
  · obtain ⟨j, hj, rfl⟩ := h
    rw [storeAll_hit p _ 0 _ hlen j hj, storeAll_hit p _ 0 _ hlen j hj]
  · apply storeAll_frame
    intro j hj ha
    exact h ⟨j, hj, ha⟩

theorem copyLoop_prot (p : Nat) (bs : List Nat) (i : Nat) (s : InitState) :
    (copyLoop p bs i s).1.prot = s.prot := by
  induction bs generalizing i s with
  | nil => rfl
  | cons b bs ih =>
    simp only [copyLoop, storeByte]
    split
    · next h =>
      split at h
      · cases h
      · rfl
    · next s1 h =>
      split at h
      · cases h
        rw [ih]
      · cases h

theorem copyLoop_ok (p : Nat) (bs : List Nat) (i : Nat) (s : InitState)
    (hw : ∀ j, j < bs.length → canWrite (s.prot ((p + (i + j) % W64) % W64)) = true) :
    copyLoop p bs i s =
      ({ mem := storeAll p bs i s.mem, prot := s.prot,
         trace := s.trace ++ (List.range bs.length).map
           (fun j => InitEvent.store ((p + (i + j) % W64) % W64) (bs.getD j 0)) }, none) := by
  induction bs generalizing i s with
  | nil => simp [copyLoop, storeAll]
  | cons b bs ih =>
    have h0 := hw 0 (by simp)
    simp only [Nat.add_zero] at h0
    simp only [copyLoop, storeByte, h0, if_true]
    rw [ih]
    · simp only [storeAll, List.length_cons, List.range_succ_eq_map, List.map_cons,
        List.map_map, List.append_assoc, List.singleton_append, Nat.add_zero,
        List.getD_cons_zero]
      congr 4
      apply List.map_congr_left
      intro j _
      simp [Nat.add_assoc, Nat.add_comm 1 j]
    · intro j hj
      have := hw (j + 1) (by simp [hj])
      simpa [Nat.add_assoc, Nat.add_comm 1 j] using this

theorem copyLoop_prefix (p : Nat) (bs : List Nat) (i : Nat) (pm : Nat → Int) :
    ∃ k, ∀ s : InitState, s.prot = pm →
      (copyLoop p bs i s).1.mem = storeAll p (bs.take k) i s.mem := by
  induction bs generalizing i with
  | nil => exact ⟨0, fun s _ => rfl⟩
  | cons b bs ih =>
    by_cases hw : canWrite (pm ((p + i % W64) % W64)) = true
    · obtain ⟨k, hk⟩ := ih (i + 1)
      refine ⟨k + 1, fun s hs => ?_⟩
      subst hs
      simp only [copyLoop, storeByte, hw, if_true, List.take_succ_cons, storeAll]
      exact hk _ rfl
    · refine ⟨0, fun s hs => ?_⟩
      subst hs
      simp only [copyLoop, storeByte, hw, if_false, List.take_zero, storeAll]
      rfl

theorem ccJmp_length (t : Nat) : (ccJmp t).length = 18 := by
  simp [ccJmp, putUint64, slice]

/-- C8: writing `ccJmp t` at `p, p+1, ...` a second time leaves memory byte-identical to the
memory after the first application, for every memory state, entry address and target. -/
theorem patch_idempotent (p t : Nat) (s : InitState) :
    (copyLoop p (ccJmp t) 0 (copyLoop p (ccJmp t) 0 s).1).1.mem
      = (copyLoop p (ccJmp t) 0 s).1.mem := by
  obtain ⟨k, hk⟩ := copyLoop_prefix p (ccJmp t) 0 s.prot
  have hlen : 0 + ((ccJmp t).take k).length ≤ W64 := by
    have h1 : ((ccJmp t).take k).length ≤ 18 := by
      rw [List.length_take, ccJmp_length]; omega
    rw [W64_eq]; omega
  rw [hk _ (copyLoop_prot p (ccJmp t) 0 s), hk s rfl]
  exact storeAll_idem p _ s.mem hlen

/-! ## The patch installer -/

theorem storeAddrs_append (xs ys : List InitEvent) :
    storeAddrs (xs ++ ys) = storeAddrs xs ++ storeAddrs ys := by
  induction xs with
  | nil => rfl
  | cons x xs ih => cases x <;> simp [storeAddrs, ih]

theorem protChanges_append (xs ys : List InitEvent) :
    protChanges (xs ++ ys) = protChanges xs ++ protChanges ys := by
  induction xs with
  | nil => rfl
  | cons x xs ih => cases x <;> simp [protChanges, ih]

theorem storeAddrs_map_store (f g : Nat → Nat) (l : List Nat) :
    storeAddrs (l.map (fun j => InitEvent.store (f j) (g j))) = l.map f := by
  induction l with
  | nil => rfl
  | cons x xs ih => simp [storeAddrs, ih]

theorem protChanges_map_store (f g : Nat → Nat) (l : List Nat) :
    protChanges (l.map (fun j => InitEvent.store (f j) (g j))) = [] := by
  induction l with
  | nil => rfl
  | cons x xs ih => simp [protChanges, ih]

theorem bor_rwx : bor (bor PROT_READ PROT_WRITE) PROT_EXEC = 7 := by decide

theorem bor_rx : bor PROT_READ PROT_EXEC = 5 := by decide

theorem bor_rw : bor PROT_READ PROT_WRITE = 3 := by decide

theorem rwx_arg : ((bor (bor PROT_READ PROT_WRITE) PROT_EXEC) % (W64 : Int)).toNat = 7 := by
  decide

theorem rx_arg : ((bor PROT_READ PROT_EXEC) % (W64 : Int)).toNat = 5 := by decide

theorem mprotect_ok (sys : Nat → Nat → Nat → Nat) (addr len : Nat) (prot : Int)
    (pm : Nat → Int) (h : sys addr len (prot % (W64 : Int)).toNat = 0) :
    mprotect sys addr len prot pm
      = (none, fun a => if addr ≤ a ∧ a < addr + len then prot else pm a) := by
  simp [mprotect, h]

theorem mprotect_err (sys : Nat → Nat → Nat → Nat) (addr len : Nat) (prot : Int)
    (pm : Nat → Int) (h : sys addr len (prot % (W64 : Int)).toNat ≠ 0) :
    mprotect sys addr len prot pm = (some (sys addr len (prot % (W64 : Int)).toNat), pm) := by
  simp [mprotect, h]

theorem mprotect_fst (sys : Nat → Nat → Nat → Nat) (addr len : Nat) (prot : Int)
    (pm pm2 : Nat → Int) :
    (mprotect sys addr len prot pm).1 = (mprotect sys addr len prot pm2).1 := by
  simp only [mprotect]
  split <;> rfl

theorem init_ok (p c S : Nat) (funcForPC : Nat → Bool) (sys : Nat → Nat → Nat → Nat)
    (mem : Nat → Nat) (prot : Nat → Int) (hres : funcForPC p = true)
    (hs1 : sys (pageOf S p) (S % W64) 7 = 0)
    (hw : ∀ i, i < 18 →
      (pageOf S p ≤ (p + i) % W64 ∧ (p + i) % W64 < pageOf S p + S % W64) ∨
      canWrite (prot ((p + i) % W64)) = true) :
    (init p c funcForPC S sys mem prot).mem = storeAll p (ccJmp c) 0 mem ∧
    (init p c funcForPC S sys mem prot).trace =
      InitEvent.mprotect (pageOf S p) (S % W64) (bor (bor PROT_READ PROT_WRITE) PROT_EXEC)
        :: (List.range 18).map (fun i => InitEvent.store ((p + i) % W64) ((ccJmp c).getD i 0))
        ++ [InitEvent.mprotect (pageOf S p) (S % W64) (bor PROT_READ PROT_EXEC)] ∧
    (init p c funcForPC S sys mem prot).panic =
      (mprotect sys (pageOf S p) (S % W64) (bor PROT_READ PROT_EXEC) prot).1.map
        InitPanic.mprotectFailed := by
  have hlen := ccJmp_length c
  have hm1 := mprotect_ok sys (pageOf S p) (S % W64) (bor (bor PROT_READ PROT_WRITE) PROT_EXEC)
    prot (by rw [rwx_arg]; exact hs1)
  have hloop := copyLoop_ok p (ccJmp c) 0
    { mem := mem,
      prot := fun a => if pageOf S p ≤ a ∧ a < pageOf S p + S % W64
        then bor (bor PROT_READ PROT_WRITE) PROT_EXEC else prot a,
      trace := [InitEvent.mprotect (pageOf S p) (S % W64)
        (bor (bor PROT_READ PROT_WRITE) PROT_EXEC)] }
    (by
      intro j hj
      rw [hlen] at hj
      simp only [Nat.zero_add, Nat.add_mod_mod]
      rcases hw j hj with h | h
      · rw [if_pos h]; decide
      · by_cases hin : pageOf S p ≤ (p + j) % W64 ∧ (p + j) % W64 < pageOf S p + S % W64
        · rw [if_pos hin]; decide
        · rw [if_neg hin]; exact h)
  simp only [init, hres, hm1, hloop, hlen]
  rw [mprotect_fst sys _ _ _ _ prot]
  cases (mprotect sys (pageOf S p) (S % W64) (bor PROT_READ PROT_EXEC) prot).1 <;> simp

/-- C5 (amended): when `p = madviseAddress()` resolves to a function, both `mprotect` system
calls succeed, `p + 18 ≤ 2 ^ 64`, and each of the 18 addresses `p, ..., p+17` lies in the
page `[pageOf p, pageOf p + pagesize)` or in memory that is writable already, `init` does
not panic; its actions are the protection change
`(pageOf p, pagesize, PROT_READ|PROT_WRITE|PROT_EXEC)`, then the 18 stores of
`ccJmp (callbackAddress())` at the strictly increasing addresses `p, p+1, ..., p+17`, then
the protection change `(pageOf p, pagesize, PROT_READ|PROT_EXEC)`; afterwards byte `p+i`
holds byte `i` of the sequence and every byte outside `[p, p + 18)` is unchanged. -/
theorem init_patches (p c S : Nat) (funcForPC : Nat → Bool) (sys : Nat → Nat → Nat → Nat)
    (mem : Nat → Nat) (prot : Nat → Int) (hS : S < W64) (hres : funcForPC p = true)
    (hs1 : sys (pageOf S p) S 7 = 0) (hs2 : sys (pageOf S p) S 5 = 0)
    (hwrap : p + 18 ≤ W64)
    (hw : ∀ i, i < 18 →
      (pageOf S p ≤ p + i ∧ p + i < pageOf S p + S) ∨ canWrite (prot (p + i)) = true) :
    (init p c funcForPC S sys mem prot).panic = none ∧
    (init p c funcForPC S sys mem prot).trace =
      InitEvent.mprotect (pageOf S p) S (bor (bor PROT_READ PROT_WRITE) PROT_EXEC)
        :: (List.range 18).map (fun i => InitEvent.store (p + i) ((ccJmp c).getD i 0))
        ++ [InitEvent.mprotect (pageOf S p) S (bor PROT_READ PROT_EXEC)] ∧
    protChanges (init p c funcForPC S sys mem prot).trace
      = [(pageOf S p, S, bor (bor PROT_READ PROT_WRITE) PROT_EXEC),
         (pageOf S p, S, bor PROT_READ PROT_EXEC)] ∧
    storeAddrs (init p c funcForPC S sys mem prot).trace
      = (List.range 18).map (fun i => p + i) ∧
    List.Pairwise (fun a b => a < b) (storeAddrs (init p c funcForPC S sys mem prot).trace) ∧
    (∀ i, i < 18 → (init p c funcForPC S sys mem prot).mem (p + i) = (ccJmp c).getD i 0) ∧
    (∀ a, (a < p ∨ p + 18 ≤ a) → (init p c funcForPC S sys mem prot).mem a = mem a) := by
  have hSm : S % W64 = S := Nat.mod_eq_of_lt hS
  have hlen := ccJmp_length c
  have hmod : ∀ i, i < 18 → (p + i) % W64 = p + i := fun i hi =>
    Nat.mod_eq_of_lt (by omega)
  obtain ⟨hmem, htrace0, hpanic0⟩ := init_ok p c S funcForPC sys mem prot hres
    (by rw [hSm]; exact hs1)
    (by
      intro i hi
      rw [hmod i hi, hSm]
      exact hw i hi)
  rw [hSm] at htrace0 hpanic0
  have hpanic : (init p c funcForPC S sys mem prot).panic = none := by
    rw [hpanic0, mprotect_ok sys _ _ _ _ (by rw [rx_arg]; exact hs2)]
    rfl
  have htrace : (init p c funcForPC S sys mem prot).trace =
      InitEvent.mprotect (pageOf S p) S (bor (bor PROT_READ PROT_WRITE) PROT_EXEC)
        :: (List.range 18).map (fun i => InitEvent.store (p + i) ((ccJmp c).getD i 0))
        ++ [InitEvent.mprotect (pageOf S p) S (bor PROT_READ PROT_EXEC)] := by
    rw [htrace0]
    congr 2
    apply List.map_congr_left
    intro i hi
    rw [hmod i (List.mem_range.mp hi)]
  have e1 : ∀ a l pr xs, storeAddrs (InitEvent.mprotect a l pr :: xs) = storeAddrs xs :=
    fun _ _ _ _ => rfl
  have e2 : ∀ a l pr, storeAddrs [InitEvent.mprotect a l pr] = [] := fun _ _ _ => rfl
  have haddrs : storeAddrs (init p c funcForPC S sys mem prot).trace
      = (List.range 18).map (fun i => p + i) := by
    rw [htrace, List.cons_append, e1, storeAddrs_append, storeAddrs_map_store, e2,
      List.append_nil]
  refine ⟨hpanic, htrace, ?_, haddrs, ?_, ?_, ?_⟩
  · rw [htrace]
    simp [protChanges, protChanges_append, protChanges_map_store]
  · rw [haddrs, List.pairwise_map]
    exact (List.pairwise_lt_range 18).imp (fun h => by omega)
  · intro i hi
    have := storeAll_hit p (ccJmp c) 0 mem (by rw [hlen]; decide) i (by rw [hlen]; exact hi)
    rw [hmem, ← hmod i hi]
    simpa using this
  · intro a ha
    rw [hmem, storeAll_frame]
    intro j hj
    rw [hlen] at hj
    rw [Nat.zero_add, Nat.add_mod_mod, hmod j hj]
    omega

/-- Witness for C5 (amended): entry address `0x1000F00`, callback at `0x2000`, 4096-byte
pages, every address resolving, every system call succeeding, zeroed memory that is
read+execute everywhere. -/
theorem init_patches_witness :
    (init 0x1000F00 0x2000 (fun _ => true) 4096 (fun _ _ _ => 0) (fun _ => 0)
      (fun _ => 5)).panic = none ∧
    protChanges (init 0x1000F00 0x2000 (fun _ => true) 4096 (fun _ _ _ => 0) (fun _ => 0)
      (fun _ => 5)).trace = [(0x1000000, 4096, 7), (0x1000000, 4096, 5)] ∧
    (init 0x1000F00 0x2000 (fun _ => true) 4096 (fun _ _ _ => 0) (fun _ => 0)
      (fun _ => 5)).mem (0x1000F00 + 17) = 0xC3 := by
  have h := init_patches 0x1000F00 0x2000 4096 (fun _ => true) (fun _ _ _ => 0) (fun _ => 0)
    (fun _ => 5) (by decide) rfl rfl rfl (by decide)
    (fun i hi => Or.inl (by
      have e : pageOf 4096 0x1000F00 = 0x1000000 := by decide
      rw [e]; omega))
  exact ⟨h.1, h.2.2.1, h.2.2.2.2.2.1 17 (by decide)⟩

/-- C5, counterexample to the claim as stated. First, at `p = 0x1000FF0` with 4096-byte pages
and code memory that is read+execute, the target resolves and every `mprotect` system call
succeeds, yet `init` faults on the store to `0x1001000`: it has issued one protection change,
not two, and byte `p+17` is not the last byte `C3` of the sequence. Second, at
`p = 2 ^ 64 - 1` with writable memory, `init` completes, but the store addresses wrap around
(`2 ^ 64 - 1, 0, 1, ...`), so they are not in increasing order and the byte at address `2`,
outside `[p, p + 18)`, is changed. -/
theorem init_patches_counterexample :
    ((init 0x1000FF0 0x2000 (fun _ => true) 4096 (fun _ _ _ => 0) (fun _ => 0)
        (fun _ => 5)).panic = some (InitPanic.fault 0x1001000) ∧
      protChanges (init 0x1000FF0 0x2000 (fun _ => true) 4096 (fun _ _ _ => 0) (fun _ => 0)
        (fun _ => 5)).trace = [(0x1000000, 4096, 7)] ∧
      (ccJmp 0x2000).getD 17 0 = 0xC3 ∧
      (init 0x1000FF0 0x2000 (fun _ => true) 4096 (fun _ _ _ => 0) (fun _ => 0)
        (fun _ => 5)).mem (0x1000FF0 + 17) = 0) ∧
    ((init (2 ^ 64 - 1) 0x2000 (fun _ => true) 4096 (fun _ _ _ => 0) (fun _ => 0)
        (fun _ => 7)).panic = none ∧
      storeAddrs (init (2 ^ 64 - 1) 0x2000 (fun _ => true) 4096 (fun _ _ _ => 0) (fun _ => 0)
        (fun _ => 7)).trace
        = [2 ^ 64 - 1, 0, 1, 2, 3, 4, 5, 6, 7, 8, 9, 10, 11, 12, 13, 14, 15, 16] ∧
      (2 : Nat) < 2 ^ 64 - 1 ∧
      (init (2 ^ 64 - 1) 0x2000 (fun _ => true) 4096 (fun _ _ _ => 0) (fun _ => 0)
        (fun _ => 7)).mem 2 = 4) := by
  decide

theorem init_outcomes_of_writable (p c S : Nat) (funcForPC : Nat → Bool)
    (sys : Nat → Nat → Nat → Nat) (mem : Nat → Nat) (prot : Nat → Int)
    (hw : ∀ i, i < 18 →
      (pageOf S p ≤ (p + i) % W64 ∧ (p + i) % W64 < pageOf S p + S % W64) ∨
      canWrite (prot ((p + i) % W64)) = true) :
    ((init p c funcForPC S sys mem prot).panic ≠ none ↔
      (funcForPC p = false ∨
       (funcForPC p = true ∧ sys (pageOf S p) (S % W64) 7 ≠ 0) ∨
       (funcForPC p = true ∧ sys (pageOf S p) (S % W64) 7 = 0 ∧
        sys (pageOf S p) (S % W64) 5 ≠ 0))) ∧
    (funcForPC p = false →
      (init p c funcForPC S sys mem prot).panic = some InitPanic.unresolved ∧
      (init p c funcForPC S sys mem prot).trace = [] ∧
      (init p c funcForPC S sys mem prot).mem = mem) ∧
    (funcForPC p = true → sys (pageOf S p) (S % W64) 7 ≠ 0 →
      (init p c funcForPC S sys mem prot).panic
        = some (InitPanic.mprotectFailed (sys (pageOf S p) (S % W64) 7)) ∧
      (init p c funcForPC S sys mem prot).trace =
        [InitEvent.mprotect (pageOf S p) (S % W64) (bor (bor PROT_READ PROT_WRITE) PROT_EXEC)] ∧
      (init p c funcForPC S sys mem prot).mem = mem) ∧
    ((storeAddrs (init p c funcForPC S sys mem prot).trace = [] ∧
        (init p c funcForPC S sys mem prot).mem = mem) ∨
     (storeAddrs (init p c funcForPC S sys mem prot).trace
          = (List.range 18).map (fun i => (p + i) % W64) ∧
        ∀ i, i < 18 →
          (init p c funcForPC S sys mem prot).mem ((p + i) % W64) = (ccJmp c).getD i 0)) := by
  have hlen := ccJmp_length c
  have e1 : ∀ a l pr xs, storeAddrs (InitEvent.mprotect a l pr :: xs) = storeAddrs xs :=
    fun _ _ _ _ => rfl
  have e2 : ∀ a l pr, storeAddrs [InitEvent.mprotect a l pr] = [] := fun _ _ _ => rfl
  cases hres : funcForPC p with
  | false => simp [init, hres, storeAddrs]
  | true =>
    by_cases hs1 : sys (pageOf S p) (S % W64) 7 = 0
    · obtain ⟨hmem, htrace, hpanic⟩ := init_ok p c S funcForPC sys mem prot hres hs1 hw
      have hd : (storeAddrs (init p c funcForPC S sys mem prot).trace
          = (List.range 18).map (fun i => (p + i) % W64) ∧
          ∀ i, i < 18 →
            (init p c funcForPC S sys mem prot).mem ((p + i) % W64) = (ccJmp c).getD i 0) := by
        constructor
        · rw [htrace, List.cons_append, e1, storeAddrs_append, storeAddrs_map_store, e2,
            List.append_nil]
        · intro i hi
          have := storeAll_hit p (ccJmp c) 0 mem (by rw [hlen]; decide) i
            (by rw [hlen]; exact hi)
          rw [hmem]
          simpa using this
      refine ⟨?_, by simp, fun _ h => absurd hs1 h, Or.inr hd⟩
      rw [hpanic]
      by_cases hs2 : sys (pageOf S p) (S % W64) 5 = 0
      · rw [mprotect_ok sys _ _ _ _ (by rw [rx_arg]; exact hs2)]
        simp [hs1, hs2]
      · rw [mprotect_err sys _ _ _ _ (by rw [rx_arg]; exact hs2)]
        simp [hs1, hs2]
    · have hm1 := mprotect_err sys (pageOf S p) (S % W64)
        (bor (bor PROT_READ PROT_WRITE) PROT_EXEC) prot (by rw [rwx_arg]; exact hs1)
      rw [rwx_arg] at hm1
      simp [init, hres, hm1, hs1, storeAddrs]

/-- C6: evaluation of `init` at `p = 0x1000FF0` with 4096-byte pages, code memory that is
read+execute and holds `0x90` everywhere, the target resolving and the `mprotect` system call
succeeding. `init` ends fatally with a fault on the store to `0x1001000`, although neither
the resolution nor a protection change failed, and it leaves the target partially patched:
the 16 bytes at `p, ..., p+15` are written (byte `p` is `6A`), bytes `p+16` and `p+17` still
hold `0x90` where the sequence has `00` and `C3`. -/
theorem init_fault_partial_patch :
    (mprotect (fun _ _ _ => 0) (pageOf 4096 0x1000FF0) 4096
      (bor (bor PROT_READ PROT_WRITE) PROT_EXEC) (fun _ => 5)).1 = none ∧
    (init 0x1000FF0 0x2000 (fun _ => true) 4096 (fun _ _ _ => 0) (fun _ => 0x90)
      (fun _ => 5)).panic = some (InitPanic.fault 0x1001000) ∧
    storeAddrs (init 0x1000FF0 0x2000 (fun _ => true) 4096 (fun _ _ _ => 0) (fun _ => 0x90)
      (fun _ => 5)).trace = (List.range 16).map (fun i => 0x1000FF0 + i) ∧
    (init 0x1000FF0 0x2000 (fun _ => true) 4096 (fun _ _ _ => 0) (fun _ => 0x90)
      (fun _ => 5)).mem 0x1000FF0 = 0x6A ∧
    (init 0x1000FF0 0x2000 (fun _ => true) 4096 (fun _ _ _ => 0) (fun _ => 0x90)
      (fun _ => 5)).mem (0x1000FF0 + 16) = 0x90 ∧
    (init 0x1000FF0 0x2000 (fun _ => true) 4096 (fun _ _ _ => 0) (fun _ => 0x90)
      (fun _ => 5)).mem (0x1000FF0 + 17) = 0x90 ∧
    (ccJmp 0x2000).getD 16 0 = 0x00 ∧ (ccJmp 0x2000).getD 17 0 = 0xC3 := by
  decide

theorem stores_inside_page_of_fit (k p i : Nat) (hp : p < W64) (hi : i < 18)
    (hfit : p % 2 ^ k + 18 ≤ 2 ^ k) :
    pageOf (2 ^ k) p ≤ p + i ∧ p + i < pageOf (2 ^ k) p + 2 ^ k := by
  have h := pageOf_eq_mul_div k p hp
  have hdm := Nat.div_add_mod p (2 ^ k)
  rw [h]
  omega

/-- C10: evaluation of `init` on a 16-byte-aligned entry address 16 bytes below a page
boundary (`p = 0x1000FF0`, 4096-byte pages). The only region made writable is the single page
`[0x1000000, 0x1001000)`, yet the stores at offsets 16 and 17 go to `0x1001000` and
`0x1001001`, which lie in the next page: when that page happens to be writable the stores
land there, and when it is read+execute like the rest of the code, `init` faults on the
store to `0x1001000` after a single protection change. -/
theorem init_store_outside_page :
    protChanges (init 0x1000FF0 0x2000 (fun _ => true) 4096 (fun _ _ _ => 0) (fun _ => 0)
        (fun a => if a < 0x1001000 then 5 else 7)).trace
      = [(0x1000000, 4096, bor (bor PROT_READ PROT_WRITE) PROT_EXEC),
         (0x1000000, 4096, bor PROT_READ PROT_EXEC)] ∧
    pageOf 4096 0x1000FF0 + 4096 = 0x1001000 ∧
    0x1001000 ∈ storeAddrs
      (init 0x1000FF0 0x2000 (fun _ => true) 4096 (fun _ _ _ => 0) (fun _ => 0)
        (fun a => if a < 0x1001000 then 5 else 7)).trace ∧
    0x1001001 ∈ storeAddrs
      (init 0x1000FF0 0x2000 (fun _ => true) 4096 (fun _ _ _ => 0) (fun _ => 0)
        (fun a => if a < 0x1001000 then 5 else 7)).trace ∧
    ¬ (0x1000FF0 + 16 < pageOf 4096 0x1000FF0 + 4096) ∧
    protChanges (init 0x1000FF0 0x2000 (fun _ => true) 4096 (fun _ _ _ => 0) (fun _ => 0)
        (fun _ => 5)).trace
      = [(0x1000000, 4096, bor (bor PROT_READ PROT_WRITE) PROT_EXEC)] ∧
    (init 0x1000FF0 0x2000 (fun _ => true) 4096 (fun _ _ _ => 0) (fun _ => 0)
        (fun _ => 5)).panic = some (InitPanic.fault (0x1000FF0 + 16)) := by
  decide

/-! ## Page protection round trip -/

/-- C7: on an explicit protection map, after `runtimeMadviseCallback` in lazy mode (protection
of `[addr, addr + n)` set to `PROT_NONE`, then to `PROT_READ|PROT_WRITE`) every address of the
region has protection read+write, none is left at `PROT_NONE`, and the protection of every
address outside the region is unchanged; hence a region that was read+write before the call
is left exactly as it was. -/
theorem lazy_protection_round_trip (addr n : Nat) (pm : Nat → Int) :
    (∀ a, addr ≤ a → a < addr + n →
      runtimeMadviseCallback protMadvise protMprotect addr n MADV_FREE pm a
        = bor PROT_READ PROT_WRITE) ∧
    (∀ a, addr ≤ a → a < addr + n →
      runtimeMadviseCallback protMadvise protMprotect addr n MADV_FREE pm a ≠ PROT_NONE) ∧
    (∀ a, ¬ (addr ≤ a ∧ a < addr + n) →
      runtimeMadviseCallback protMadvise protMprotect addr n MADV_FREE pm a = pm a) ∧
    ((∀ a, addr ≤ a → a < addr + n → pm a = bor PROT_READ PROT_WRITE) →
      runtimeMadviseCallback protMadvise protMprotect addr n MADV_FREE pm = pm) := by
  have key : ∀ a, runtimeMadviseCallback protMadvise protMprotect addr n MADV_FREE pm a
      = if addr ≤ a ∧ a < addr + n then bor PROT_READ PROT_WRITE else pm a := by
    intro a
    simp only [runtimeMadviseCallback, protMadvise, protMprotect, if_true]
    split <;> rfl
  refine ⟨?_, ?_, ?_, ?_⟩
  · intro a h1 h2
    rw [key, if_pos ⟨h1, h2⟩]
  · intro a h1 h2
    rw [key, if_pos ⟨h1, h2⟩]
    decide
  · intro a h
    rw [key, if_neg h]
  · intro h
    funext a
    rw [key]
    split
    · next hin => exact (h a hin.1 hin.2).symm
    · rfl

/-- Witness for C7: the region `[4096, 4096 + 8192)` of a map that is read+write everywhere. -/
theorem lazy_protection_round_trip_witness :
    runtimeMadviseCallback protMadvise protMprotect 4096 8192 MADV_FREE (fun _ => 3) 5000 = 3 ∧
    runtimeMadviseCallback protMadvise protMprotect 4096 8192 MADV_FREE (fun _ => 3)
      = (fun _ => 3) :=
  ⟨(lazy_protection_round_trip 4096 8192 (fun _ => 3)).1 5000 (by decide) (by decide),
   (lazy_protection_round_trip 4096 8192 (fun _ => 3)).2.2.2 (fun _ _ _ => by decide)⟩

/-! ## Execution of the redirection sequence -/

theorem writeBytes_apply (mem : Nat → Nat) (addr : Nat) (bs : List Nat) (a : Nat)
    (h : addr + bs.length ≤ W64) :
    writeBytes mem addr bs a
      = if addr ≤ a ∧ a < addr + bs.length then bs.getD (a - addr) 0 else mem a := by
  induction bs generalizing mem addr with
  | nil =>
    have h0 : ¬ (addr ≤ a ∧ a < addr + 0) := by omega
    simp only [writeBytes, List.length_nil, if_neg h0]
  | cons b bs ih =>
    simp only [List.length_cons] at h
    have hlt : addr % W64 = addr := Nat.mod_eq_of_lt (by omega)
    simp only [writeBytes, List.length_cons]
    rw [ih _ _ (by omega), hlt]
    by_cases h1 : addr + 1 ≤ a ∧ a < addr + 1 + bs.length
    · have h2 : addr ≤ a ∧ a < addr + (bs.length + 1) := by omega
      have h3 : a - addr = (a - (addr + 1)) + 1 := by omega
      rw [if_pos h1, if_pos h2, h3, List.getD_cons_succ]
    · rw [if_neg h1]
      by_cases h4 : a = addr
      · subst h4
        have h2 : a ≤ a ∧ a < a + (bs.length + 1) := by omega
        simp [h2]
      · have h2 : ¬ (addr ≤ a ∧ a < addr + (bs.length + 1)) := by omega
        rw [if_neg h4, if_neg h2]

theorem decode_ccJmp (t : Nat) (ht : t < W64) :
    decode (ccJmp t) =
      some [Instr.pushImm8 0, Instr.movDwordRsp 0 (slice (ccJmp t) 5 9),
            Instr.movDwordRsp 4 (slice (ccJmp t) 13 17), Instr.ret] := by
  rw [ccJmp_eq t ht]
  rfl

theorem redirect_mem (m : Nat → Nat) (q : Nat) (lo hi : List Nat) (hq : q + 8 < W64)
    (hlo : lo.length = 4) (hhi : hi.length = 4) (a : Nat) :
    writeBytes (writeBytes (writeBytes m q (putUint64 0)) (q % W64) lo) ((q + 4) % W64) hi a
      = if q + 4 ≤ a ∧ a < q + 8 then hi.getD (a - (q + 4)) 0
        else if q ≤ a ∧ a < q + 4 then lo.getD (a - q) 0
        else if q ≤ a ∧ a < q + 8 then 0 else m a := by
  have e1 : q % W64 = q := Nat.mod_eq_of_lt (by omega)
  have e2 : (q + 4) % W64 = q + 4 := Nat.mod_eq_of_lt (by omega)
  have hz : (putUint64 0).length = 8 := rfl
  rw [e1, e2]
  rw [writeBytes_apply _ (q + 4) hi a (by rw [hhi]; omega),
    writeBytes_apply _ q lo a (by rw [hlo]; omega),
    writeBytes_apply _ q (putUint64 0) a (by rw [hz]; omega), hlo, hhi, hz]
  by_cases h1 : q + 4 ≤ a ∧ a < q + 4 + 4
  · rw [if_pos h1, if_pos (show q + 4 ≤ a ∧ a < q + 8 by omega)]
  · rw [if_neg h1, if_neg (show ¬ (q + 4 ≤ a ∧ a < q + 8) by omega)]
    by_cases h2 : q ≤ a ∧ a < q + 4
    · rw [if_pos h2, if_pos h2]
    · rw [if_neg h2, if_neg h2]
      by_cases h3 : q ≤ a ∧ a < q + 8
      · rw [if_pos h3, if_pos h3]
        have h4 : a - q < 8 := by omega
        generalize a - q = j at h4
        interval_cases j <;> rfl
      · rw [if_neg h3, if_neg h3]

theorem redirect_run (t : Nat) (c : Cpu) (ht : t < W64) (hsp : 8 ≤ c.rsp) (hsp2 : c.rsp < W64) :
    ∃ c', runCode (ccJmp t) c = some c' ∧ c'.rip = t ∧ c'.rsp = c.rsp ∧ c'.regs = c.regs ∧
      ∀ a, c.rsp ≤ a → c'.mem a = c.mem a := by
  obtain ⟨q, hq⟩ : ∃ q, c.rsp = q + 8 := ⟨c.rsp - 8, by omega⟩
  have hq64 : q + 8 < W64 := by omega
  have hsp' : (c.rsp + W64 - 8) % W64 = q := by
    have : c.rsp + W64 - 8 = q + W64 := by omega
    rw [this, Nat.add_mod_right, Nat.mod_eq_of_lt (by omega)]
  have hlo : slice (ccJmp t) 5 9
      = [t % 256, t / 256 ^ 1 % 256, t / 256 ^ 2 % 256, t / 256 ^ 3 % 256] := by
    rw [ccJmp_eq t ht]; rfl
  have hhi : slice (ccJmp t) 13 17
      = [t / 256 ^ 4 % 256, t / 256 ^ 5 % 256, t / 256 ^ 6 % 256, t / 256 ^ 7 % 256] := by
    rw [ccJmp_eq t ht]; rfl
  have hs0 : signExt8 0 = 0 := rfl
  have hs4 : signExt8 4 = 4 := rfl
  have hM := redirect_mem c.mem q
    [t % 256, t / 256 ^ 1 % 256, t / 256 ^ 2 % 256, t / 256 ^ 3 % 256]
    [t / 256 ^ 4 % 256, t / 256 ^ 5 % 256, t / 256 ^ 6 % 256, t / 256 ^ 7 % 256] hq64 rfl rfl
  rw [runCode, decode_ccJmp t ht, hlo, hhi]
  simp only [Option.map_some', execSeq, execInstr, hs0, hs4, hsp', Nat.add_zero, reduceCtorEq,
    if_false, if_true]
  refine ⟨_, rfl, ?_, ?_, rfl, ?_⟩
  · have e0 : q % W64 = q := Nat.mod_eq_of_lt (by omega)
    have e1 : (q + 1) % W64 = q + 1 := Nat.mod_eq_of_lt (by omega)
    have e2 : (q + 1 + 1) % W64 = q + 2 := Nat.mod_eq_of_lt (by omega)
    have e3 : (q + 1 + 1 + 1) % W64 = q + 3 := Nat.mod_eq_of_lt (by omega)
    have e4 : (q + 1 + 1 + 1 + 1) % W64 = q + 4 := Nat.mod_eq_of_lt (by omega)
    have e5 : (q + 1 + 1 + 1 + 1 + 1) % W64 = q + 5 := Nat.mod_eq_of_lt (by omega)
    have e6 : (q + 1 + 1 + 1 + 1 + 1 + 1) % W64 = q + 6 := Nat.mod_eq_of_lt (by omega)
    have e7 : (q + 1 + 1 + 1 + 1 + 1 + 1 + 1) % W64 = q + 7 := Nat.mod_eq_of_lt (by omega)
    simp only [readBytes, hM]
    rw [e1, e2, e3, e4, e5, e6, e7, e0]
    have := leValue_bytes t ht
    simpa using this
  · simp only [hq]
    exact Nat.mod_eq_of_lt hq64
  · intro a ha
    simp only [hM]
    rw [if_neg (show ¬ (q + 4 ≤ a ∧ a < q + 8) by omega),
      if_neg (show ¬ (q ≤ a ∧ a < q + 4) by omega),
      if_neg (show ¬ (q ≤ a ∧ a < q + 8) by omega)]

/-- C4 (amended): for every 64-bit address `t` and every initial stack pointer `sp` with
`8 ≤ sp < 2 ^ 64`, `ccJmp t` decodes as `PUSH 0; MOV DWORD [RSP+0], imm32 (bytes 5..8);
MOV DWORD [RSP+4], imm32 (bytes 13..16); RET`; the two immediates satisfy
`low32 + 2 ^ 32 * high32 = t`; and executing the sequence ends with the instruction pointer
equal to that value, hence to `t`, the stack pointer equal to its initial value, every other
register unchanged and no memory at or above the initial stack pointer changed. -/
theorem ccJmp_transfers_control (t : Nat) (c : Cpu) (ht : t < W64) (hsp : 8 ≤ c.rsp)
    (hsp2 : c.rsp < W64) :
    decode (ccJmp t) =
      some [Instr.pushImm8 0, Instr.movDwordRsp 0 (slice (ccJmp t) 5 9),
            Instr.movDwordRsp 4 (slice (ccJmp t) 13 17), Instr.ret] ∧
    leValue (slice (ccJmp t) 5 9) + 2 ^ 32 * leValue (slice (ccJmp t) 13 17) = t ∧
    ∃ c', runCode (ccJmp t) c = some c' ∧
      c'.rip = leValue (slice (ccJmp t) 5 9) + 2 ^ 32 * leValue (slice (ccJmp t) 13 17) ∧
      c'.rip = t ∧ c'.rsp = c.rsp ∧ c'.regs = c.regs ∧
      ∀ a, c.rsp ≤ a → c'.mem a = c.mem a := by
  have hval : leValue (slice (ccJmp t) 5 9) + 2 ^ 32 * leValue (slice (ccJmp t) 13 17) = t := by
    have hlo : slice (ccJmp t) 5 9
        = [t % 256, t / 256 ^ 1 % 256, t / 256 ^ 2 % 256, t / 256 ^ 3 % 256] := by
      rw [ccJmp_eq t ht]; rfl
    have hhi : slice (ccJmp t) 13 17
        = [t / 256 ^ 4 % 256, t / 256 ^ 5 % 256, t / 256 ^ 6 % 256, t / 256 ^ 7 % 256] := by
      rw [ccJmp_eq t ht]; rfl
    rw [hlo, hhi]
    have := leValue_bytes t ht
    simp only [leValue] at this ⊢
    omega
  obtain ⟨c', h1, h2, h3, h4, h5⟩ := redirect_run t c ht hsp hsp2
  exact ⟨decode_ccJmp t ht, hval, c', h1, by rw [hval, h2], h2, h3, h4, h5⟩

/-- Witness for C4 (amended): target `0x2000`, stack pointer `4096`, zeroed registers and
memory. -/
theorem ccJmp_transfers_control_witness :
    ∃ c', runCode (ccJmp 0x2000) { rip := 0, rsp := 4096, regs := fun _ => 0, mem := fun _ => 0 }
        = some c' ∧ c'.rip = 0x2000 ∧ c'.rsp = 4096 := by
  obtain ⟨_, _, c', h1, _, h2, h3, _, _⟩ :=
    ccJmp_transfers_control 0x2000
      { rip := 0, rsp := 4096, regs := fun _ => 0, mem := fun _ => 0 }
      (by decide) (by decide) (by decide)
  exact ⟨c', h1, h2, h3⟩

/-- C4, counterexample to the claim as stated. Bytes 14..17 of `ccJmp 0` are `00 00 00 C3`
(the last one is the `RET` opcode, not part of the second immediate), so
`low32 + 2 ^ 32 * high32` taken from bytes 5..8 and 14..17 is not the target `0`. And with
initial stack pointer `0` the push wraps around the address space: running `ccJmp 1` on
zeroed memory changes the byte at `2 ^ 64 - 8`, which is at or above the initial stack
pointer. -/
theorem ccJmp_claim_counterexample :
    slice (ccJmp 0) 14 18 = [0x00, 0x00, 0x00, 0xC3] ∧
    leValue (slice (ccJmp 0) 5 9) + 2 ^ 32 * leValue (slice (ccJmp 0) 14 18) ≠ 0 ∧
    (0 : Nat) ≤ 2 ^ 64 - 8 ∧
    (runCode (ccJmp 1) { rip := 0, rsp := 0, regs := fun _ => 0, mem := fun _ => 0 }).map
      (fun c' => c'.mem (2 ^ 64 - 8)) = some 1 := by
  decide

end Darfree
